import Mathlib

/-!
Verification development for the io_bench repository.

The development shallowly embeds the parts of the code that the specified
properties talk about:

* the adaptive size-targeted partition sizer
  (`IOBench._find_partition_end_index` / `IOBench._find_partition_ranges`
  in `io_bench/io_bench.py`),
* the partition writer (`IOBench._partition`): the row slice of each range
  and the per-encoder-variant copies written into each format family's
  shared directory,
* the parser adapters (`io_bench/utilities/parsing.py`),
* the directory-clearing loop (`IOBench.clear_partitions`),
* the benchmark summary aggregation (`utilities/bench.py`,
  `IOBench._run_benchmark`),
* the run-id suffix logic of `IOBench.battery`.

Conventions of the embedding:

* A dataframe is represented only through its row count `R : Nat`, or, where
  row contents matter, as a `List α` of rows; `df.iloc[a:b]` becomes
  `(rows.drop a).take (b - a)`.
* The empirical serialized size of a row slice `df.iloc[a:b]` written to a
  temporary file is an arbitrary function `sz : Nat → Nat → Nat` (file sizes
  are byte counts, hence `Nat`); the external format encoders are treated at
  their interface boundary, so `sz` is a parameter of every statement.
* Python `while` loops are modelled by structurally recursive functions on an
  explicit fuel argument, with fuel-adequacy lemmas showing the fuel chosen by
  the top-level definitions never runs out for the inputs the code uses
  (positive probe chunk size).
* Fallible operations return `Except String`, a raised exception being the
  `Except.error` case.
-/

namespace IoBench

/-! ### Partition sizer: `IOBench._find_partition_end_index` -/

/-- Loop body of `_find_partition_end_index` (io_bench.py lines 197-214):

    while end_idx < len(df) and current_size < target_size:
        next_end_idx = min(end_idx + chunk_size, len(df))
        ... serialize df.iloc[end_idx:next_end_idx], obtaining tmp_size ...
        current_size += tmp_size
        if current_size > target_size and end_idx > start_idx:
            break
        end_idx = next_end_idx

`R` is `len(df)`, `sz a b` the serialized size of `df.iloc[a:b]`, and the
loop state is `(endIdx, cs)` for `(end_idx, current_size)`.  The first
argument is fuel for the recursion. -/
def find_end_loop (sz : Nat → Nat → Nat) (R T chunk start : Nat) :
    Nat → Nat → Nat → Nat
  | 0, endIdx, _ => endIdx
  | fuel + 1, endIdx, cs =>
    if endIdx < R ∧ cs < T then
      let nextEnd := min (endIdx + chunk) R
      let cs' := cs + sz endIdx nextEnd
      if T < cs' ∧ start < endIdx then endIdx
      else find_end_loop sz R T chunk start fuel nextEnd cs'
    else endIdx

/-- Embedding of `IOBench._find_partition_end_index` (io_bench.py lines
197-214).  The loop runs from `(start, 0)`; afterwards the method returns

    return end_idx if end_idx > start_idx else len(df)

Fuel `R + 1` suffices because each loop iteration either exits or strictly
increases `end_idx` (bounded by `R`) whenever `chunk > 0`. -/
def find_partition_end_index (sz : Nat → Nat → Nat)
    (R start T chunk : Nat) : Nat :=
  let e := find_end_loop sz R T chunk start (R + 1) start 0
  if start < e then e else R

/-- Loop of `_find_partition_ranges` (io_bench.py lines 183-195):

    while start_idx < len(df):
        end_idx = await self._find_partition_end_index(...)
        if end_idx == start_idx:
            break
        partition_ranges.append((start_idx, end_idx))
        start_idx = end_idx

with an explicit fuel argument. -/
def find_ranges_loop (sz : Nat → Nat → Nat) (R T chunk : Nat) :
    Nat → Nat → List (Nat × Nat)
  | 0, _ => []
  | fuel + 1, start =>
    if start < R then
      let e := find_partition_end_index sz R start T chunk
      if e = start then []
      else (start, e) :: find_ranges_loop sz R T chunk fuel e
    else []

/-- Embedding of `IOBench._find_partition_ranges` (io_bench.py lines
183-195), including the fallback

    if not partition_ranges:
        partition_ranges.append((0, len(df)))

Fuel `R + 1` suffices because each appended range strictly advances
`start_idx` towards `R`. -/
def find_partition_ranges (sz : Nat → Nat → Nat)
    (R T chunk : Nat) : List (Nat × Nat) :=
  let rs := find_ranges_loop sz R T chunk (R + 1) 0
  if rs = [] then [(0, R)] else rs

/-! ### Accumulated probe size of an index interval

`chunked_sum sz chunk a b` is the total of the serialized sizes of the probe
slices `df.iloc[a:min(a+chunk,b)]`, `df.iloc[min(a+chunk,b):...]`, … that the
sizer's loop measures while scanning the interval `[a, b)`.  It is defined
with the same fuel style as the loops; fuel `b - a` is adequate whenever
`chunk > 0`. -/

/-- Fuel-indexed accumulated probe size of `[a, b)` in steps of `chunk`. -/
def chunked_sum_loop (sz : Nat → Nat → Nat) (chunk : Nat) :
    Nat → Nat → Nat → Nat
  | 0, _, _ => 0
  | fuel + 1, a, b =>
    if a < b then
      sz a (min (a + chunk) b) + chunked_sum_loop sz chunk fuel (min (a + chunk) b) b
    else 0

/-- Accumulated probe size of the interval `[a, b)` in steps of `chunk`. -/
def chunked_sum (sz : Nat → Nat → Nat) (chunk a b : Nat) : Nat :=
  chunked_sum_loop sz chunk (b - a) a b

/-! ### Contiguous range chains

`ranges_chain s l t` says the list `l` of half-open ranges starts at `s`,
each range is well-formed (`fst ≤ snd`), consecutive ranges abut, and the
last range ends at `t`. -/

def ranges_chain : Nat → List (Nat × Nat) → Nat → Prop
  | s, [], t => s = t
  | s, p :: rest, t => s = p.1 ∧ p.1 ≤ p.2 ∧ ranges_chain p.2 rest t

/-! ### Partition writing: `IOBench._partition`

For every discovered range `(start_idx, end_idx)` the write loop
(io_bench.py lines 166-178) serializes the slice
`df.iloc[start_idx:end_idx]`.  The avro branch writes exactly one file
`part_<n>.avro` per range; the parquet and feather branches instead write
one copy of the slice per *selected encoder variant* of the family
(`<parser>_part_<n>.<ext>`), and all of a family's copies land in the one
shared family directory that every adapter of that family later reads back
in full via glob.  With rows represented as a `List α`, the slice is
`(rows.drop start).take (end - start)`. -/

/-- Per-range slices of the dataset, in range order: the slice contents
`_partition` serializes.  The avro branch writes exactly these files, one
per range; the parquet/feather branches write one copy of each slice per
selected encoder variant (`family_partition_files`). -/
def partition_slices {α : Type} (rows : List α)
    (ranges : List (Nat × Nat)) : List (List α) :=
  ranges.map fun p => (rows.drop p.1).take (p.2 - p.1)

/-- The encoder variants of the parquet family, in the order the write loop
iterates them (io_bench.py line 172). -/
def parquet_family : List String :=
  ["parquet_polars", "parquet_arrow", "parquet_fast"]

/-- The encoder variants of the feather family (io_bench.py line 176). -/
def feather_family : List String := ["feather", "feather_arrow"]

/-- The constructor's default parser selection (io_bench.py lines 29-36). -/
def default_parsers : List String :=
  ["avro", "parquet_polars", "parquet_arrow", "parquet_fast",
    "feather", "feather_arrow"]

/-- The variants of a family the write loop actually writes:
`for parser in <family>: if parser in self.parsers` (io_bench.py lines
172-173 and 176-177). -/
def selected_family (variants parsers : List String) : List String :=
  variants.filter fun v => parsers.contains v

/-- Contents of one family's shared partition directory after `_partition`
(io_bench.py lines 166-178), in write order: for each range, one copy of
the range's slice per selected encoder variant of the family (the copies
are identical because every variant of a family uses the same writer).
For the avro family (single variant) this is one file per range.  The
family's adapters read this whole directory back via glob. -/
def family_partition_files {α : Type} (variants parsers : List String)
    (rows : List α) (ranges : List (Nat × Nat)) : List (List α) :=
  ranges.flatMap fun p =>
    (selected_family variants parsers).map fun _ =>
      (rows.drop p.1).take (p.2 - p.1)

/-! ### Parser adapters (`io_bench/utilities/parsing.py`)

A parser adapter is modelled on the list of already-decoded partition files
it discovers (each file a list of rows); the external format decoders are
treated as faithful at their interface boundary, and the relaxed
`diagonal_relaxed` concatenation of same-schema partition files is row
concatenation.  Raising `FileNotFoundError` is the `Except.error` case. -/

/-- Embedding of `AvroParser.to_polars` (parsing.py lines 19-35): read all
files, concatenate when at least one file was found, otherwise raise
`FileNotFoundError('No data collected!')`. -/
def AvroParser.to_polars {ρ : Type} (files : List (List ρ)) :
    Except String (List ρ) :=
  match files with
  | [] => Except.error "No data collected!"
  | _ => Except.ok files.flatten

/-- Embedding of `PolarsParquetParser.to_polars` (parsing.py lines 45-56):
the method delegates directly to `pl.read_parquet(f'{dir}/*.parquet')`
without any in-repo empty-directory check; `read_parquet_glob` is that
external polars call, applied to the files the glob matches. -/
def PolarsParquetParser.to_polars {ρ : Type}
    (read_parquet_glob : List (List ρ) → Except String (List ρ))
    (files : List (List ρ)) : Except String (List ρ) :=
  read_parquet_glob files

/-- Embedding of `ArrowParquetParser.to_polars` (parsing.py lines 66-82). -/
def ArrowParquetParser.to_polars {ρ : Type} (files : List (List ρ)) :
    Except String (List ρ) :=
  match files with
  | [] => Except.error "No data collected!"
  | _ => Except.ok files.flatten

/-- Embedding of `FastParquetParser.to_polars` (parsing.py lines 92-108). -/
def FastParquetParser.to_polars {ρ : Type} (files : List (List ρ)) :
    Except String (List ρ) :=
  match files with
  | [] => Except.error "No data collected!"
  | _ => Except.ok files.flatten

/-- Embedding of `FeatherParser.to_polars` (parsing.py lines 118-134). -/
def FeatherParser.to_polars {ρ : Type} (files : List (List ρ)) :
    Except String (List ρ) :=
  match files with
  | [] => Except.error "No data collected!"
  | _ => Except.ok files.flatten

/-- Embedding of `ArrowFeatherParser.to_polars` (parsing.py lines 144-160). -/
def ArrowFeatherParser.to_polars {ρ : Type} (files : List (List ρ)) :
    Except String (List ρ) :=
  match files with
  | [] => Except.error "No data collected!"
  | _ => Except.ok files.flatten

/-! ### Directory clearing: `IOBench.clear_partitions`

`clear_partitions` iterates over the three format directories; for each it
calls `os.listdir(directory)` (which raises, uncaught, when the directory
does not exist) and then deletes each listed entry inside a per-entry
`try/except` that only reports failures.  An entry's deletion attempt is an
abstract `delete : ε → Except String Unit` covering the
`unlink`/`rmdir`/neither dispatch; a directory is `Option (List ε)`, `none`
when it does not exist. -/

/-- Per-directory loop of `clear_partitions` (io_bench.py lines 100-108):
every entry is attempted, and a failing deletion is recorded next to its
entry instead of aborting the loop. -/
def clear_dir_entries {ε : Type} (delete : ε → Except String Unit) :
    List ε → List (ε × Option String)
  | [] => []
  | e :: rest =>
    (match delete e with
      | Except.ok _ => (e, none)
      | Except.error m => (e, some m)) :: clear_dir_entries delete rest

/-- Embedding of `IOBench.clear_partitions` (io_bench.py lines 95-108) over
the list of its three directories: `os.listdir` on a missing directory
raises before the per-entry error containment starts. -/
def clear_partitions {ε : Type} (delete : ε → Except String Unit) :
    List (Option (List ε)) → Except String (List (List (ε × Option String)))
  | [] => Except.ok []
  | d :: rest =>
    match d with
    | none => Except.error "No such file or directory"
    | some entries =>
      match clear_partitions delete rest with
      | Except.ok outs => Except.ok (clear_dir_entries delete entries :: outs)
      | Except.error m => Except.error m

/-! ### Benchmark summary aggregation (`utilities/bench.py`, lines 140-162)

The per-iteration measurements recorded by `IOBench._run_benchmark` are the
lists `rows`, `params`, `times`, `sizes`; elapsed times are modelled as
rationals (the float arithmetic of the summary is the exact field arithmetic
of `ℚ` here, which preserves the sign and the divide-by-zero guards the
claims are about).  Python's `x if cond else 0` with a truthiness test on the
total maps to an `if total ≠ 0` conditional. -/

structure RunMeasurements where
  rows : List Nat
  params : List Nat
  times : List ℚ
  sizes : List Nat

def total_time (m : RunMeasurements) : ℚ := m.times.sum

def total_rows (m : RunMeasurements) : Nat := m.rows.sum

def total_params (m : RunMeasurements) : Nat := m.params.sum

def total_size (m : RunMeasurements) : Nat := m.sizes.sum

/-- `rows_per_sec = total_rows / total_time if total_time else 0`. -/
def rows_per_sec (m : RunMeasurements) : ℚ :=
  if total_time m ≠ 0 then (total_rows m : ℚ) / total_time m else 0

/-- `params_per_sec = total_params / total_time if total_time else 0`. -/
def params_per_sec (m : RunMeasurements) : ℚ :=
  if total_time m ≠ 0 then (total_params m : ℚ) / total_time m else 0

/-- `params_per_mb = total_params / (total_size / (1024 * 1024)) if total_size
else 0`. -/
def params_per_mb (m : RunMeasurements) : ℚ :=
  if total_size m ≠ 0 then
    (total_params m : ℚ) / ((total_size m : ℚ) / (1024 * 1024))
  else 0

/-! ### Run ids: `IOBench.battery` (io_bench.py lines 271-292)

    if suffix is None:
        suffix = f'_{self.benchmark_counter}'
        self.benchmark_counter += 1
    for name, parser in self.selected_parsers.items():
        bench = Bench(..., id=f'{name}{suffix}')...

The state acted on is the counter; the observable output is the list of run
ids, one per selected parser name.  Python's `f'_{n}'` decimal formatting of
the counter is `"_" ++ Nat.repr n`. -/

def battery (parsers : List String) (suffix : Option String)
    (counter : Nat) : List String × Nat :=
  match suffix with
  | none =>
    (parsers.map fun name => name ++ ("_" ++ Nat.repr counter), counter + 1)
  | some s => (parsers.map fun name => name ++ s, counter)

/-! ### Concrete instances used by the witnesses and the counterexample -/

/-- Size function for witnesses: the serialized size of a slice is its row
count. -/
def szW : Nat → Nat → Nat := fun a b => b - a

/-- Size function for the C2 counterexample: every probed slice serializes
to 6 bytes. -/
def szCex : Nat → Nat → Nat := fun _ _ => 6

/-- Deletion behaviour for witnesses: entry 1 is undeletable, all other
entries delete fine. -/
def deleteW : Nat → Except String Unit :=
  fun e => if e = 1 then Except.error "denied" else Except.ok ()

/-- Witness stand-in for the external `pl.read_parquet` glob call: errors on
an empty match set, concatenates otherwise. -/
def read_parquet_globW : List (List Nat) → Except String (List Nat) :=
  fun fs =>
    match fs with
    | [] => Except.error "glob matched no files"
    | _ => Except.ok fs.flatten

/-- Witness measurements: one iteration that read 5 rows and 25 cells in
zero measured time from zero measured bytes. -/
def mW : RunMeasurements := ⟨[5], [25], [0], [0]⟩

theorem chunked_sum_loop_of_ge (sz : Nat → Nat → Nat) (chunk : Nat)
    {a b : Nat} (h : b ≤ a) : ∀ fuel, chunked_sum_loop sz chunk fuel a b = 0
  | 0 => rfl
  | fuel + 1 => by
    simp only [chunked_sum_loop, if_neg (Nat.not_lt.mpr h)]

theorem chunked_sum_loop_congr (sz : Nat → Nat → Nat) {chunk : Nat}
    (hc : 0 < chunk) :
    ∀ f g a b, b - a ≤ f → b - a ≤ g →
      chunked_sum_loop sz chunk f a b = chunked_sum_loop sz chunk g a b := by
  intro f
  induction f with
  | zero =>
    intro g a b hf _
    have hba : b ≤ a := Nat.le_of_sub_eq_zero (Nat.le_zero.mp hf)
    rw [chunked_sum_loop_of_ge sz chunk hba, chunked_sum_loop_of_ge sz chunk hba]
  | succ f ih =>
    intro g a b hf hg
    by_cases hab : a < b
    · obtain ⟨g', rfl⟩ : ∃ g', g = g' + 1 := by
        cases g with
        | zero => exact absurd (Nat.le_zero.mp hg) (by omega)
        | succ g' => exact ⟨g', rfl⟩
      simp only [chunked_sum_loop, if_pos hab]
      have hstep : a + 1 ≤ min (a + chunk) b := by
        have : a + 1 ≤ a + chunk := by omega
        exact Nat.le_min.mpr ⟨this, hab⟩
      have h1 : b - min (a + chunk) b ≤ f := by omega
      have h2 : b - min (a + chunk) b ≤ g' := by omega
      rw [ih g' (min (a + chunk) b) b h1 h2]
    · have hba : b ≤ a := Nat.not_lt.mp hab
      rw [chunked_sum_loop_of_ge sz chunk hba, chunked_sum_loop_of_ge sz chunk hba]

theorem chunked_sum_self (sz : Nat → Nat → Nat) (chunk : Nat) {a b : Nat}
    (h : b ≤ a) : chunked_sum sz chunk a b = 0 :=
  chunked_sum_loop_of_ge sz chunk h _

/-- Unfolding rule: the probe size of `[a, b)` with `a < b` is the size of the
first probe slice plus the probe size of the rest. -/
theorem chunked_sum_step (sz : Nat → Nat → Nat) {chunk : Nat} (hc : 0 < chunk)
    {a b : Nat} (hab : a < b) :
    chunked_sum sz chunk a b =
      sz a (min (a + chunk) b) + chunked_sum sz chunk (min (a + chunk) b) b := by
  have hfuel : ∃ f, b - a = f + 1 := ⟨b - a - 1, by omega⟩
  obtain ⟨f, hf⟩ := hfuel
  unfold chunked_sum
  rw [hf]
  simp only [chunked_sum_loop, if_pos hab]
  congr 1
  have hstep : a + 1 ≤ min (a + chunk) b := by
    have : a + 1 ≤ a + chunk := by omega
    exact Nat.le_min.mpr ⟨this, hab⟩
  exact chunked_sum_loop_congr sz hc f (b - min (a + chunk) b)
    (min (a + chunk) b) b (by omega) (le_refl _)

/-! ### Basic bounds on the sizer loop -/

theorem find_end_loop_ge (sz : Nat → Nat → Nat) (R T chunk s : Nat) :
    ∀ fuel e cs, e ≤ find_end_loop sz R T chunk s fuel e cs := by
  intro fuel
  induction fuel with
  | zero => intro e cs; exact Nat.le_refl e
  | succ fuel ih =>
    intro e cs
    simp only [find_end_loop]
    split
    · next hcond =>
      split
      · exact Nat.le_refl e
      · have h1 : e ≤ min (e + chunk) R :=
          Nat.le_min.mpr ⟨Nat.le_add_right e chunk, Nat.le_of_lt hcond.1⟩
        exact Nat.le_trans h1 (ih _ _)
    · exact Nat.le_refl e

theorem find_end_loop_le (sz : Nat → Nat → Nat) (R T chunk s : Nat) :
    ∀ fuel e cs, e ≤ R → find_end_loop sz R T chunk s fuel e cs ≤ R := by
  intro fuel
  induction fuel with
  | zero => intro e cs h; exact h
  | succ fuel ih =>
    intro e cs h
    simp only [find_end_loop]
    split
    · split
      · exact h
      · exact ih _ _ (Nat.min_le_right _ _)
    · exact h

theorem find_end_loop_at_end (sz : Nat → Nat → Nat) (R T chunk s : Nat)
    {e : Nat} (h : ¬ e < R) :
    ∀ fuel cs, find_end_loop sz R T chunk s fuel e cs = e := by
  intro fuel cs
  cases fuel with
  | zero => rfl
  | succ fuel =>
    simp only [find_end_loop]
    rw [if_neg]
    intro hcond
    exact h hcond.1

/-- The end index returned by `_find_partition_end_index` strictly advances
past `start` and stays within the dataset whenever `start < R`. -/
theorem find_partition_end_index_bounds (sz : Nat → Nat → Nat)
    {R s : Nat} (T chunk : Nat) (hs : s < R) :
    s < find_partition_end_index sz R s T chunk ∧
      find_partition_end_index sz R s T chunk ≤ R := by
  unfold find_partition_end_index
  by_cases h : s < find_end_loop sz R T chunk s (R + 1) s 0
  · rw [if_pos h]
    exact ⟨h, find_end_loop_le sz R T chunk s _ s 0 (Nat.le_of_lt hs)⟩
  · rw [if_neg h]
    exact ⟨hs, Nat.le_refl R⟩

/-! ### Exhaustion: probing that never reaches the target scans to the end -/

theorem find_end_loop_exhaust (sz : Nat → Nat → Nat) {R T chunk : Nat}
    (s : Nat) (hc : 0 < chunk) :
    ∀ fuel e cs, R - e < fuel → e ≤ R →
      cs + chunked_sum sz chunk e R < T →
      find_end_loop sz R T chunk s fuel e cs = R := by
  intro fuel
  induction fuel with
  | zero => intro e cs hfuel _ _; omega
  | succ fuel ih =>
    intro e cs hfuel heR hsum
    by_cases he : e < R
    · have hcs : cs < T := by
        have := Nat.le_add_right cs (chunked_sum sz chunk e R)
        omega
      simp only [find_end_loop, if_pos (And.intro he hcs)]
      have hstep := chunked_sum_step sz hc he (b := R)
      have hnext : e + 1 ≤ min (e + chunk) R := by
        refine Nat.le_min.mpr ⟨by omega, he⟩
      rw [if_neg]
      · refine ih (min (e + chunk) R) (cs + sz e (min (e + chunk) R))
          (by omega) (Nat.min_le_right _ _) (by omega)
      · intro hbrk
        have : T < cs + sz e (min (e + chunk) R) := hbrk.1
        omega
    · have : e = R := by omega
      rw [find_end_loop_at_end sz R T chunk s he]
      exact this

/-- If the accumulated probe size of the whole remaining dataset stays below
the target, `_find_partition_end_index` returns `R`. -/
theorem find_partition_end_index_exhaust (sz : Nat → Nat → Nat)
    {R T chunk : Nat} (s : Nat) (hc : 0 < chunk) (hs : s ≤ R)
    (hsum : chunked_sum sz chunk s R < T) :
    find_partition_end_index sz R s T chunk = R := by
  unfold find_partition_end_index
  have hloop : find_end_loop sz R T chunk s (R + 1) s 0 = R :=
    find_end_loop_exhaust sz s hc (R + 1) s 0 (by omega) hs (by omega)
  rw [hloop]
  by_cases h : s < R
  · rw [if_pos h]
  · have : s = R := by omega
    subst this
    rw [if_neg (Nat.lt_irrefl s)]

/-- If the dataset fits in a single probe chunk, `_find_partition_end_index`
from row 0 returns `R`. -/
theorem find_partition_end_index_small (sz : Nat → Nat → Nat)
    {R chunk : Nat} (T : Nat) (hR : R ≤ chunk) :
    find_partition_end_index sz R 0 T chunk = R := by
  unfold find_partition_end_index
  by_cases hR0 : 0 < R
  · by_cases hT : 0 < T
    · have h1 : find_end_loop sz R T chunk 0 (R + 1) 0 0 = R := by
        simp only [find_end_loop, if_pos (And.intro hR0 hT)]
        rw [if_neg (by intro h; exact Nat.lt_irrefl 0 h.2)]
        have hmin : min (0 + chunk) R = R := by omega
        rw [hmin]
        exact find_end_loop_at_end sz R T chunk 0 (Nat.lt_irrefl R) _ _
      rw [h1, if_pos hR0]
    · have hT0 : T = 0 := by omega
      subst hT0
      have h1 : find_end_loop sz R 0 chunk 0 (R + 1) 0 0 = 0 := by
        simp only [find_end_loop]
        rw [if_neg (by intro h; exact Nat.lt_irrefl 0 h.2)]
      rw [h1, if_neg (Nat.lt_irrefl 0)]
  · have : R = 0 := by omega
    subst this
    rw [find_end_loop_at_end sz 0 T chunk 0 (Nat.lt_irrefl 0) _ _,
      if_neg (Nat.lt_irrefl 0)]

/-! ### Properties of contiguous range chains -/

theorem ranges_chain_le {t : Nat} :
    ∀ {l : List (Nat × Nat)} {s : Nat}, ranges_chain s l t → s ≤ t := by
  intro l
  induction l with
  | nil => intro s h; exact Nat.le_of_eq h
  | cons p rest ih =>
    intro s h
    obtain ⟨h1, h2, h3⟩ := h
    subst h1
    exact Nat.le_trans h2 (ih h3)

theorem ranges_chain_head {t : Nat} {l : List (Nat × Nat)} {s : Nat}
    (h : ranges_chain s l t) : ∀ p, l.head? = some p → p.1 = s := by
  intro p hp
  cases l with
  | nil => simp at hp
  | cons q rest =>
    simp only [List.head?_cons, Option.some.injEq] at hp
    subst hp
    exact h.1.symm

theorem ranges_chain_last {t : Nat} :
    ∀ {l : List (Nat × Nat)} {s : Nat}, ranges_chain s l t →
      ∀ p, l.getLast? = some p → p.2 = t := by
  intro l
  induction l with
  | nil => intro s _ p hp; simp at hp
  | cons q rest ih =>
    intro s h p hp
    cases rest with
    | nil =>
      simp only [List.getLast?_singleton, Option.some.injEq] at hp
      subst hp
      exact h.2.2
    | cons q' rest' =>
      rw [List.getLast?_cons_cons] at hp
      exact ih h.2.2 p hp

theorem ranges_chain_adjacent {t : Nat} :
    ∀ {l : List (Nat × Nat)} {s : Nat}, ranges_chain s l t →
      ∀ pq ∈ l.zip l.tail, pq.1.2 = pq.2.1 := by
  intro l
  induction l with
  | nil => intro s _ pq hpq; simp at hpq
  | cons q rest ih =>
    intro s h pq hpq
    cases rest with
    | nil => simp at hpq
    | cons q' rest' =>
      simp only [List.tail_cons, List.zip_cons_cons, List.mem_cons] at hpq
      rcases hpq with hpq | hpq
      · subst hpq
        exact h.2.2.1
      · exact ih h.2.2 pq (by simpa using hpq)

theorem ranges_chain_mem {t : Nat} :
    ∀ {l : List (Nat × Nat)} {s : Nat}, ranges_chain s l t →
      ∀ p ∈ l, p.1 ≤ p.2 := by
  intro l
  induction l with
  | nil => intro s _ p hp; simp at hp
  | cons q rest ih =>
    intro s h p hp
    rcases List.mem_cons.mp hp with hp | hp
    · subst hp; exact h.2.1
    · exact ih h.2.2 p hp

theorem ranges_chain_cover {t : Nat} :
    ∀ {l : List (Nat × Nat)} {s : Nat}, ranges_chain s l t →
      ∀ i, (s ≤ i ∧ i < t) ↔ ∃ p ∈ l, p.1 ≤ i ∧ i < p.2 := by
  intro l
  induction l with
  | nil =>
    intro s h i
    subst h
    simp only [List.not_mem_nil, false_and, exists_const, exists_false, iff_false]
    omega
  | cons q rest ih =>
    intro s h i
    obtain ⟨h1, h2, h3⟩ := h
    subst h1
    have hqt : q.2 ≤ t := ranges_chain_le h3
    have hrest := ih h3 i
    simp only [List.mem_cons, exists_eq_or_imp]
    constructor
    · intro hi
      by_cases hq : i < q.2
      · exact Or.inl ⟨hi.1, hq⟩
      · exact Or.inr (hrest.mp ⟨by omega, hi.2⟩)
    · intro hi
      rcases hi with hi | hi
      · exact ⟨hi.1, by omega⟩
      · have := hrest.mpr hi
        exact ⟨by omega, this.2⟩

/-! ### Structure of the list returned by `_find_partition_ranges` -/

theorem find_ranges_loop_chain (sz : Nat → Nat → Nat) {R T chunk : Nat} :
    ∀ fuel s, R - s < fuel → s ≤ R →
      ranges_chain s (find_ranges_loop sz R T chunk fuel s) R := by
  intro fuel
  induction fuel with
  | zero => intro s hfuel _; omega
  | succ fuel ih =>
    intro s hfuel hsR
    by_cases hs : s < R
    · obtain ⟨hlt, hle⟩ := find_partition_end_index_bounds sz T chunk hs
      simp only [find_ranges_loop, if_pos hs]
      rw [if_neg (by omega)]
      exact ⟨rfl, Nat.le_of_lt hlt, ih _ (by omega) hle⟩
    · have : s = R := by omega
      simp only [find_ranges_loop, if_neg hs]
      exact this

theorem find_ranges_loop_mem (sz : Nat → Nat → Nat) (R T chunk : Nat) :
    ∀ fuel s, ∀ p ∈ find_ranges_loop sz R T chunk fuel s,
      p.1 < R ∧ p.2 = find_partition_end_index sz R p.1 T chunk := by
  intro fuel
  induction fuel with
  | zero => intro s p hp; simp [find_ranges_loop] at hp
  | succ fuel ih =>
    intro s p hp
    simp only [find_ranges_loop] at hp
    by_cases hs : s < R
    · rw [if_pos hs] at hp
      by_cases he : find_partition_end_index sz R s T chunk = s
      · rw [if_pos he] at hp
        simp at hp
      · rw [if_neg he] at hp
        rcases List.mem_cons.mp hp with hp | hp
        · subst hp
          exact ⟨hs, rfl⟩
        · exact ih _ p hp
    · rw [if_neg hs] at hp
      simp at hp

theorem find_ranges_loop_ne_nil (sz : Nat → Nat → Nat) {R T chunk s : Nat}
    (hs : s < R) (fuel : Nat) :
    find_ranges_loop sz R T chunk (fuel + 1) s ≠ [] := by
  obtain ⟨hlt, _⟩ := find_partition_end_index_bounds sz T chunk hs
  simp only [find_ranges_loop, if_pos hs]
  rw [if_neg (by omega)]
  simp

/-- The full output of `_find_partition_ranges` (fallback included) is a
nonempty contiguous chain from `0` to `R`. -/
theorem find_partition_ranges_chain (sz : Nat → Nat → Nat)
    (R T chunk : Nat) :
    find_partition_ranges sz R T chunk ≠ [] ∧
      ranges_chain 0 (find_partition_ranges sz R T chunk) R := by
  unfold find_partition_ranges
  by_cases hR : 0 < R
  · have hne := @find_ranges_loop_ne_nil sz R T chunk 0 hR R
    rw [if_neg hne]
    exact ⟨hne, find_ranges_loop_chain sz (R + 1) 0 (by omega) (by omega)⟩
  · have : R = 0 := by omega
    subst this
    have hnil : find_ranges_loop sz 0 T chunk (0 + 1) 0 = [] := by
      simp [find_ranges_loop]
    rw [hnil, if_pos rfl]
    refine ⟨by simp, rfl, Nat.le_refl 0, rfl⟩

/-- Every element of the output of `_find_partition_ranges` for a dataset
with `0 < R` starts strictly inside the dataset and ends at the value
computed by `_find_partition_end_index`. -/
theorem find_partition_ranges_mem (sz : Nat → Nat → Nat)
    {R : Nat} (T chunk : Nat) (hR : 0 < R) :
    ∀ p ∈ find_partition_ranges sz R T chunk,
      p.1 < R ∧ p.2 = find_partition_end_index sz R p.1 T chunk := by
  intro p hp
  unfold find_partition_ranges at hp
  by_cases hnil : find_ranges_loop sz R T chunk (R + 1) 0 = []
  · rw [hnil, if_pos rfl] at hp
    simp only [List.mem_singleton] at hp
    subst hp
    refine ⟨hR, ?_⟩
    have := @find_ranges_loop_ne_nil sz R T chunk 0 hR R
    exact absurd hnil this
  · rw [if_neg hnil] at hp
    exact find_ranges_loop_mem sz R T chunk (R + 1) 0 p hp

/-! ### How a committed range relates to the target size

If the sizer loop commits an end index strictly inside the dataset, then
either the accumulated probe size of the committed interval already reached
the target, or the loop broke out after probing one further chunk whose
inclusion pushes the accumulated size strictly past the target. -/

theorem find_end_loop_target (sz : Nat → Nat → Nat) {R T chunk : Nat}
    (s : Nat) (hc : 0 < chunk) :
    ∀ fuel e cs, R - e < fuel → e ≤ R →
      find_end_loop sz R T chunk s fuel e cs < R →
      T ≤ cs + chunked_sum sz chunk e (find_end_loop sz R T chunk s fuel e cs) ∨
      T < cs + chunked_sum sz chunk e
            (min (find_end_loop sz R T chunk s fuel e cs + chunk) R) := by
  intro fuel
  induction fuel with
  | zero => intro e cs hfuel _ _; omega
  | succ fuel ih =>
    intro e cs hfuel heR hlt
    by_cases hcond : e < R ∧ cs < T
    · simp only [find_end_loop, if_pos hcond] at hlt ⊢
      by_cases hbrk : T < cs + sz e (min (e + chunk) R) ∧ s < e
      · rw [if_pos hbrk] at hlt ⊢
        right
        have hlt' : e < min (e + chunk) R := Nat.lt_min.mpr ⟨by omega, hcond.1⟩
        have hstep := chunked_sum_step sz hc hlt'
        have hmin : min (e + chunk) (min (e + chunk) R) = min (e + chunk) R := by
          omega
        rw [hstep, hmin, chunked_sum_self sz chunk (Nat.le_refl _)]
        omega
      · rw [if_neg hbrk] at hlt ⊢
        have hnextlb : e + 1 ≤ min (e + chunk) R :=
          Nat.le_min.mpr ⟨by omega, hcond.1⟩
        have hrec := ih (min (e + chunk) R) (cs + sz e (min (e + chunk) R))
          (by omega) (Nat.min_le_right _ _) hlt
        have hge : min (e + chunk) R ≤
            find_end_loop sz R T chunk s fuel (min (e + chunk) R)
              (cs + sz e (min (e + chunk) R)) :=
          find_end_loop_ge sz R T chunk s fuel _ _
        set e' := find_end_loop sz R T chunk s fuel (min (e + chunk) R)
          (cs + sz e (min (e + chunk) R)) with he'
        have hck : e + chunk ≤ R := by omega
        have hminR : min (e + chunk) R = e + chunk := by omega
        rw [hminR] at hrec hge
        rcases hrec with h | h
        · left
          have hstep2 := chunked_sum_step sz hc (a := e) (b := e') (by omega)
          have hmin2 : min (e + chunk) e' = e + chunk := by omega
          rw [hstep2, hmin2]
          omega
        · right
          have heX : e < min (e' + chunk) R := by omega
          have hstep2 := chunked_sum_step sz hc heX
          have hmin2 : min (e + chunk) (min (e' + chunk) R) = e + chunk := by
            omega
          rw [hstep2, hmin2]
          omega
    · simp only [find_end_loop, if_neg hcond] at hlt ⊢
      have hcs : T ≤ cs := by
        rcases Nat.lt_or_ge cs T with h | h
        · exact absurd ⟨hlt, h⟩ hcond
        · exact h
      left
      rw [chunked_sum_self sz chunk (Nat.le_refl _)]
      omega

/-- If `_find_partition_end_index` commits an end index strictly inside the
dataset, the accumulated probe size of `[s, end)` reached the target, or
adding the overshooting probe chunk that the break excluded pushes it
strictly past the target. -/
theorem find_partition_end_index_target (sz : Nat → Nat → Nat)
    {R T chunk s : Nat} (hc : 0 < chunk) (hs : s < R)
    (hlt : find_partition_end_index sz R s T chunk < R) :
    T ≤ chunked_sum sz chunk s (find_partition_end_index sz R s T chunk) ∨
    T < chunked_sum sz chunk s
          (min (find_partition_end_index sz R s T chunk + chunk) R) := by
  unfold find_partition_end_index at hlt ⊢
  by_cases h : s < find_end_loop sz R T chunk s (R + 1) s 0
  · rw [if_pos h] at hlt ⊢
    have := find_end_loop_target sz s hc (R + 1) s 0 (by omega)
      (Nat.le_of_lt hs) hlt
    simpa using this
  · rw [if_neg h] at hlt
    omega

/-! ### Concatenating the written slices reconstructs the dataset -/

theorem ranges_chain_join {α : Type} (rows : List α) :
    ∀ {l : List (Nat × Nat)} {a : Nat}, ranges_chain a l rows.length →
      (partition_slices rows l).flatten = (rows.drop a).take (rows.length - a) := by
  intro l
  induction l with
  | nil =>
    intro a h
    subst h
    simp [partition_slices]
  | cons p rest ih =>
    intro a h
    obtain ⟨h1, h2, h3⟩ := h
    subst h1
    have hp2 : p.2 ≤ rows.length := ranges_chain_le h3
    simp only [partition_slices, List.map_cons, List.flatten_cons]
    have hrec := ih h3
    simp only [partition_slices] at hrec
    rw [hrec]
    have hsplit : rows.length - p.1 = (p.2 - p.1) + (rows.length - p.2) := by
      omega
    have hdrop : List.drop p.2 rows = (List.drop p.1 rows).drop (p.2 - p.1) := by
      rw [List.drop_drop]
      congr 1
      omega
    rw [hdrop, hsplit, List.take_add]

/-! ### The k-fold directory contents of a format family

A family directory holds `k` identical copies of every range slice, where
`k` is the number of selected encoder variants of the family.  Reading the
whole directory back (in any glob order) therefore yields the dataset's
rows repeated `k` times, and exactly the dataset when `k = 1`. -/

theorem family_partition_files_eq {α : Type} (variants parsers : List String)
    (rows : List α) (ranges : List (Nat × Nat)) :
    family_partition_files variants parsers rows ranges =
      (partition_slices rows ranges).flatMap
        (fun x => List.replicate (selected_family variants parsers).length x) := by
  unfold family_partition_files partition_slices
  rw [List.flatMap_map]
  simp only [List.map_const']

theorem family_partition_files_length {α : Type}
    (variants parsers : List String) (rows : List α) :
    ∀ ranges : List (Nat × Nat),
      (family_partition_files variants parsers rows ranges).length =
        ranges.length * (selected_family variants parsers).length
  | [] => by simp [family_partition_files]
  | p :: rest => by
    unfold family_partition_files
    rw [List.flatMap_cons, List.length_append, List.length_map]
    have := family_partition_files_length variants parsers rows rest
    unfold family_partition_files at this
    rw [this, List.length_cons]
    ring

theorem flatten_replicate_nil {α : Type} :
    ∀ k, (List.replicate k ([] : List α)).flatten = []
  | 0 => rfl
  | k + 1 => by
    rw [List.replicate_succ, List.flatten_cons, flatten_replicate_nil k]
    rfl

theorem flatten_replicate_succ {α : Type} (k : Nat) (x : List α) :
    (List.replicate (k + 1) x).flatten = x ++ (List.replicate k x).flatten := by
  rw [List.replicate_succ, List.flatten_cons]

theorem length_flatten_replicate {α : Type} (rows : List α) :
    ∀ k, (List.replicate k rows).flatten.length = k * rows.length
  | 0 => by simp
  | k + 1 => by
    rw [flatten_replicate_succ, List.length_append,
      length_flatten_replicate rows k, Nat.succ_mul]
    omega

theorem perm_flatten_replicate_append {α : Type} (x F : List α) :
    ∀ k, ((List.replicate k (x ++ F)).flatten).Perm
      ((List.replicate k x).flatten ++ (List.replicate k F).flatten)
  | 0 => by simp
  | k + 1 => by
    rw [flatten_replicate_succ, flatten_replicate_succ, flatten_replicate_succ]
    refine ((perm_flatten_replicate_append x F k).append_left (x ++ F)).trans ?_
    simp only [List.append_assoc]
    refine List.Perm.append_left x ?_
    have h := (@List.perm_append_comm _ F
      ((List.replicate k x).flatten)).append_right
      ((List.replicate k F).flatten)
    simpa [List.append_assoc] using h

theorem perm_flatMap_replicate {α : Type} (k : Nat) :
    ∀ sl : List (List α),
      ((sl.flatMap fun x => List.replicate k x).flatten).Perm
        ((List.replicate k sl.flatten).flatten)
  | [] => by simp [flatten_replicate_nil]
  | x :: xs => by
    rw [List.flatMap_cons, List.flatten_append, List.flatten_cons]
    refine List.Perm.trans ?_ (perm_flatten_replicate_append x xs.flatten k).symm
    exact (perm_flatMap_replicate k xs).append_left _

theorem flatMap_singleton_map {α β : Type} (g : β → List α) :
    ∀ l : List β, (l.flatMap fun p => [g p]) = l.map g
  | [] => rfl
  | p :: rest => by
    rw [List.flatMap_cons, flatMap_singleton_map g rest]
    rfl

/-! ### Helper: a non-last list element has a successor -/

theorem mem_dropLast_succ {α : Type} :
    ∀ {l : List α} {p : α}, p ∈ l.dropLast →
      ∃ q, (p, q) ∈ l.zip l.tail ∧ q ∈ l := by
  intro l
  induction l with
  | nil => intro p hp; simp at hp
  | cons a rest ih =>
    intro p hp
    cases rest with
    | nil => simp at hp
    | cons b r =>
      rw [List.dropLast_cons₂] at hp
      rcases List.mem_cons.mp hp with hp | hp
      · subst hp
        exact ⟨b, by simp, by simp⟩
      · obtain ⟨q, hq1, hq2⟩ := ih hp
        refine ⟨q, ?_, List.mem_cons_of_mem a hq2⟩
        simp only [List.tail_cons, List.zip_cons_cons, List.mem_cons]
        right
        simpa using hq1

/-- Every non-last range returned by `_find_partition_ranges` ends strictly
inside the dataset, at the index `_find_partition_end_index` committed. -/
theorem find_partition_ranges_dropLast (sz : Nat → Nat → Nat)
    (R T chunk : Nat) :
    ∀ p ∈ (find_partition_ranges sz R T chunk).dropLast,
      p.1 < R ∧ p.2 < R ∧
        p.2 = find_partition_end_index sz R p.1 T chunk := by
  intro p hp
  by_cases hR : 0 < R
  · have hmem := List.mem_of_mem_dropLast hp
    obtain ⟨h1, h2⟩ := find_partition_ranges_mem sz T chunk hR p hmem
    obtain ⟨q, hzip, hq⟩ := mem_dropLast_succ hp
    have hchain := (find_partition_ranges_chain sz R T chunk).2
    have hadj := ranges_chain_adjacent hchain (p, q) hzip
    have hq1 := (find_partition_ranges_mem sz T chunk hR q hq).1
    have hadj' : p.2 = q.1 := hadj
    exact ⟨h1, by rw [hadj']; exact hq1, h2⟩
  · have : R = 0 := by omega
    subst this
    have hchain := find_partition_ranges_chain sz 0 T chunk
    unfold find_partition_ranges at hp
    have hnil : find_ranges_loop sz 0 T chunk (0 + 1) 0 = [] := by
      simp [find_ranges_loop]
    rw [hnil, if_pos rfl] at hp
    simp at hp

/-! ### Decimal rendering of the run counter

`f'_{n}'` renders the counter in decimal, i.e. `Nat.repr`.  Two consecutive
counters render differently because the rendered string always ends in the
digit character of `n % 10`. -/

theorem toDigitsCore_append (b : Nat) :
    ∀ fuel n ds, ∃ l, Nat.toDigitsCore b fuel n ds = l ++ ds := by
  intro fuel
  induction fuel with
  | zero => intro n ds; exact ⟨[], rfl⟩
  | succ fuel ih =>
    intro n ds
    simp only [Nat.toDigitsCore]
    by_cases h : n / b = 0
    · rw [if_pos h]
      exact ⟨[Nat.digitChar (n % b)], rfl⟩
    · rw [if_neg h]
      obtain ⟨l, hl⟩ := ih (n / b) (Nat.digitChar (n % b) :: ds)
      exact ⟨l ++ [Nat.digitChar (n % b)], by rw [hl]; simp⟩

theorem repr_data_last (n : Nat) :
    ∃ l, (Nat.repr n).data = l ++ [Nat.digitChar (n % 10)] := by
  show ∃ l, ((Nat.toDigits 10 n).asString).data = l ++ [Nat.digitChar (n % 10)]
  unfold Nat.toDigits
  simp only [Nat.toDigitsCore]
  by_cases h : n / 10 = 0
  · rw [if_pos h]
    exact ⟨[], rfl⟩
  · rw [if_neg h]
    obtain ⟨l, hl⟩ := toDigitsCore_append 10 n (n / 10) [Nat.digitChar (n % 10)]
    exact ⟨l, by rw [hl]; rfl⟩

theorem digitChar_inj_lt :
    ∀ a < 10, ∀ b < 10, Nat.digitChar a = Nat.digitChar b → a = b := by
  decide

theorem repr_succ_ne (c : Nat) : Nat.repr c ≠ Nat.repr (c + 1) := by
  intro h
  obtain ⟨l1, h1⟩ := repr_data_last c
  obtain ⟨l2, h2⟩ := repr_data_last (c + 1)
  have hdata : (Nat.repr c).data = (Nat.repr (c + 1)).data := by rw [h]
  rw [h1, h2] at hdata
  have hlast : some (Nat.digitChar (c % 10)) =
      some (Nat.digitChar ((c + 1) % 10)) := by
    rw [← List.getLast?_concat l1, ← List.getLast?_concat l2, hdata]
  have hd : Nat.digitChar (c % 10) = Nat.digitChar ((c + 1) % 10) :=
    Option.some.inj hlast
  have hmod : (c + 1) % 10 = ((c % 10) + 1) % 10 := by omega
  have heq : c % 10 = (c + 1) % 10 :=
    digitChar_inj_lt (c % 10) (Nat.mod_lt c (by omega)) ((c + 1) % 10)
      (Nat.mod_lt (c + 1) (by omega)) hd
  omega

theorem find_ranges_loop_at_end (sz : Nat → Nat → Nat) {R T chunk s : Nat}
    (h : ¬ s < R) : ∀ fuel, find_ranges_loop sz R T chunk fuel s = [] := by
  intro fuel
  cases fuel with
  | zero => rfl
  | succ fuel => simp only [find_ranges_loop, if_neg h]

/-- When `_find_partition_end_index` from row 0 commits the whole dataset,
`_find_partition_ranges` returns the single range `(0, R)`. -/
theorem find_partition_ranges_of_end_eq (sz : Nat → Nat → Nat)
    {R T chunk : Nat} (hR : 0 < R)
    (hend : find_partition_end_index sz R 0 T chunk = R) :
    find_partition_ranges sz R T chunk = [(0, R)] := by
  have hloop : find_ranges_loop sz R T chunk (R + 1) 0 = [(0, R)] := by
    simp only [find_ranges_loop, if_pos hR, hend]
    rw [if_neg (by omega)]
    rw [find_ranges_loop_at_end sz (Nat.lt_irrefl R) R]
  unfold find_partition_ranges
  rw [hloop]
  simp

theorem to_polars_of_ne_nil {ρ : Type} {files : List (List ρ)}
    (h : files ≠ []) :
    AvroParser.to_polars files = Except.ok files.flatten ∧
      ArrowParquetParser.to_polars files = Except.ok files.flatten ∧
      FastParquetParser.to_polars files = Except.ok files.flatten ∧
      FeatherParser.to_polars files = Except.ok files.flatten ∧
      ArrowFeatherParser.to_polars files = Except.ok files.flatten := by
  cases files with
  | nil => exact absurd rfl h
  | cons f fs => exact ⟨rfl, rfl, rfl, rfl, rfl⟩

/-- Appending the rendered counter to the same name yields different ids for
consecutive counters. -/
theorem append_repr_succ_ne (name : String) (c : Nat) :
    name ++ ("_" ++ Nat.repr c) ≠ name ++ ("_" ++ Nat.repr (c + 1)) := by
  intro h
  have hdata := congrArg String.data h
  simp only [String.data_append] at hdata
  have h1 := List.append_cancel_left hdata
  have h2 := List.append_cancel_left h1
  exact repr_succ_ne c (String.ext h2)

/-! ## Claims -/

/-- C1: for every dataset of `R` rows, every target partition size `T`,
every probe chunk size `chunk > 0`, and every format (arbitrary size
function `sz`), the ranges returned by `_find_partition_ranges` form a
non-empty sequence that starts at 0, ends at `R`, is contiguous (each
range's start equals the previous range's end, so the well-formed ranges
are also non-overlapping), and whose union is exactly the half-open
interval `[0, R)`. -/
theorem claim_C1 (sz : Nat → Nat → Nat) (R T chunk : Nat)
    (_hchunk : 0 < chunk) :
    find_partition_ranges sz R T chunk ≠ [] ∧
    (∀ p, (find_partition_ranges sz R T chunk).head? = some p → p.1 = 0) ∧
    (∀ p, (find_partition_ranges sz R T chunk).getLast? = some p → p.2 = R) ∧
    (∀ pq ∈ (find_partition_ranges sz R T chunk).zip
        (find_partition_ranges sz R T chunk).tail, pq.1.2 = pq.2.1) ∧
    (∀ p ∈ find_partition_ranges sz R T chunk, p.1 ≤ p.2) ∧
    (∀ i, i < R ↔
      ∃ p ∈ find_partition_ranges sz R T chunk, p.1 ≤ i ∧ i < p.2) := by
  obtain ⟨hne, hchain⟩ := find_partition_ranges_chain sz R T chunk
  refine ⟨hne, ranges_chain_head hchain, ranges_chain_last hchain,
    ranges_chain_adjacent hchain, ranges_chain_mem hchain, ?_⟩
  intro i
  have h := ranges_chain_cover hchain i
  constructor
  · intro hi
    exact h.mp ⟨Nat.zero_le i, hi⟩
  · intro hi
    exact (h.mpr hi).2

/-- Witness for C1 at `sz = szW`, `R = 5`, `T = 3`, `chunk = 2`, where the
sizer commits the ranges `[(0,2),(2,5)]`. -/
theorem claim_C1_witness :
    (0 < 2) ∧
    find_partition_ranges szW 5 3 2 = [(0, 2), (2, 5)] ∧
    (find_partition_ranges szW 5 3 2 ≠ [] ∧
    (∀ p, (find_partition_ranges szW 5 3 2).head? = some p → p.1 = 0) ∧
    (∀ p, (find_partition_ranges szW 5 3 2).getLast? = some p → p.2 = 5) ∧
    (∀ pq ∈ (find_partition_ranges szW 5 3 2).zip
        (find_partition_ranges szW 5 3 2).tail, pq.1.2 = pq.2.1) ∧
    (∀ p ∈ find_partition_ranges szW 5 3 2, p.1 ≤ p.2) ∧
    (∀ i, i < 5 ↔
      ∃ p ∈ find_partition_ranges szW 5 3 2, p.1 ≤ i ∧ i < p.2)) :=
  ⟨by decide, by decide, claim_C1 szW 5 3 2 (by decide)⟩

/-- C2 as frozen is false on the code: with a constant probe slice size of
6 bytes, 3 rows, probe chunk 1 and target 10, the sizer breaks out of the
growth loop without committing the overshooting probe chunk, so the
non-last ranges `(0,1)` and `(1,2)` each have accumulated serialized size
6 < 10. -/
theorem claim_C2_counterexample :
    ¬ (∀ p ∈ (find_partition_ranges szCex 3 10 1).dropLast,
        10 ≤ chunked_sum szCex 1 p.1 p.2) := by
  decide

/-- C2 (amended): for every non-last range committed by the sizer, the
accumulated probe size reaches the target once the first probe chunk
beyond the range is counted: either the range's own accumulated serialized
size is at least `T`, or the loop stopped because probing one further
chunk pushed the accumulated size strictly past `T` (that overshooting
chunk is excluded from the committed range). -/
theorem claim_C2 (sz : Nat → Nat → Nat) (R T chunk : Nat)
    (hchunk : 0 < chunk) :
    ∀ p ∈ (find_partition_ranges sz R T chunk).dropLast,
      T ≤ chunked_sum sz chunk p.1 p.2 ∨
      T < chunked_sum sz chunk p.1 (min (p.2 + chunk) R) := by
  intro p hp
  obtain ⟨h1, h2, h3⟩ := find_partition_ranges_dropLast sz R T chunk p hp
  rw [h3] at h2 ⊢
  exact find_partition_end_index_target sz hchunk h1 h2

/-- Witness for C2 (amended) at `sz = szCex`, `R = 3`, `T = 10`,
`chunk = 1`: each non-last range has size 6 but reaches 12 > 10 with one
more probe chunk. -/
theorem claim_C2_witness :
    (0 < 1) ∧
    (∀ p ∈ (find_partition_ranges szCex 3 10 1).dropLast,
      10 ≤ chunked_sum szCex 1 p.1 p.2 ∨
      10 < chunked_sum szCex 1 p.1 (min (p.2 + 1) 3)) :=
  ⟨by decide, claim_C2 szCex 3 10 1 (by decide)⟩

/-- C3: for a zero-row dataset, a dataset smaller than one probe chunk, or
whenever the accumulated probe size over the whole dataset never reaches
the target, `_find_partition_ranges` returns exactly the single range
`(0, R)`. -/
theorem claim_C3 (sz : Nat → Nat → Nat) (R T chunk : Nat)
    (hchunk : 0 < chunk)
    (h : R = 0 ∨ R < chunk ∨ chunked_sum sz chunk 0 R < T) :
    find_partition_ranges sz R T chunk = [(0, R)] := by
  by_cases hR : 0 < R
  · rcases h with h | h | h
    · omega
    · exact find_partition_ranges_of_end_eq sz hR
        (find_partition_end_index_small sz T (Nat.le_of_lt h))
    · exact find_partition_ranges_of_end_eq sz hR
        (find_partition_end_index_exhaust sz 0 hchunk (Nat.zero_le R) h)
  · have h0 : R = 0 := by omega
    subst h0
    unfold find_partition_ranges
    rw [find_ranges_loop_at_end sz (Nat.lt_irrefl 0) (0 + 1), if_pos rfl]

/-- Witness for C3: 5 rows with probe chunk 10 (dataset smaller than one
probe chunk) yield the single range `(0, 5)`. -/
theorem claim_C3_witness :
    (0 < 10) ∧ (5 < 10) ∧ find_partition_ranges szW 5 1 10 = [(0, 5)] :=
  ⟨by decide, by decide, claim_C3 szW 5 1 10 (by decide) (Or.inr (Or.inl (by decide)))⟩

/-- C4: for every dataset with `R > 0` rows, `_find_partition_end_index`
always advances strictly past its start index (a first probe step that
already exceeds the target with zero prior progress is still accepted, and
a start index with no progress is replaced by `R`), so every range
returned by `_find_partition_ranges` is non-empty and each outer iteration
makes forward progress. -/
theorem claim_C4 (sz : Nat → Nat → Nat) (R T chunk : Nat)
    (_hchunk : 0 < chunk) (hR : 0 < R) :
    (∀ s, s < R → s < find_partition_end_index sz R s T chunk) ∧
    (∀ p ∈ find_partition_ranges sz R T chunk, p.1 < p.2) := by
  refine ⟨fun s hs => (find_partition_end_index_bounds sz T chunk hs).1, ?_⟩
  intro p hp
  obtain ⟨h1, h2⟩ := find_partition_ranges_mem sz T chunk hR p hp
  rw [h2]
  exact (find_partition_end_index_bounds sz T chunk h1).1

/-- Witness for C4 at `sz = szCex`, `R = 3`, `T = 10`, `chunk = 1`: the
very first probe step already gives size 6, and with `T = 2` it would
exceed the target at once yet still be accepted. -/
theorem claim_C4_witness :
    (0 < 1) ∧ (0 < 3) ∧
    ((∀ s, s < 3 → s < find_partition_end_index szCex 3 s 2 1) ∧
     (∀ p ∈ find_partition_ranges szCex 3 2 1, p.1 < p.2)) :=
  ⟨by decide, by decide, claim_C4 szCex 3 2 1 (by decide) (by decide)⟩

/-- C5 (code bug): five of the six parser adapters raise
`FileNotFoundError('No data collected!')` on an empty directory, but
`PolarsParquetParser.to_polars` performs no in-repo missing-data check at
all — it returns exactly whatever the external `pl.read_parquet` glob call
produces, so it cannot raise the repo's own missing-data error that the
repo's test `test_polars_parquet_parser_no_data` (and the spec) demand of
all six adapters. -/
theorem claim_C5 {ρ : Type}
    (read_parquet_glob : List (List ρ) → Except String (List ρ)) :
    AvroParser.to_polars ([] : List (List ρ)) =
      Except.error "No data collected!" ∧
    ArrowParquetParser.to_polars ([] : List (List ρ)) =
      Except.error "No data collected!" ∧
    FastParquetParser.to_polars ([] : List (List ρ)) =
      Except.error "No data collected!" ∧
    FeatherParser.to_polars ([] : List (List ρ)) =
      Except.error "No data collected!" ∧
    ArrowFeatherParser.to_polars ([] : List (List ρ)) =
      Except.error "No data collected!" ∧
    PolarsParquetParser.to_polars read_parquet_glob [] = read_parquet_glob [] :=
  ⟨rfl, rfl, rfl, rfl, rfl, rfl⟩

/-- With an external glob reader that errors in its own way on an unmatched
glob, `PolarsParquetParser.to_polars` surfaces that foreign error rather
than the repo's missing-data error the other adapters raise. -/
theorem polars_parquet_empty_glob :
    PolarsParquetParser.to_polars read_parquet_globW [] =
      Except.error "glob matched no files" ∧
    PolarsParquetParser.to_polars read_parquet_globW [] ≠
      Except.error "No data collected!" :=
  ⟨rfl, by
    intro h
    exact absurd (Except.error.inj h) (by decide)⟩

/-- C6: the three throughput fields of the benchmark summary are
non-negative whenever the recorded elapsed times are non-negative, and each
is exactly 0 — not a division by zero — when the iteration count is 0
(empty measurement lists), when the total elapsed time is zero, or (for the
byte-normalised metric) when the total size is zero. -/
theorem claim_C6 (m : RunMeasurements)
    (ht : ∀ t ∈ m.times, 0 ≤ t) :
    0 ≤ rows_per_sec m ∧ 0 ≤ params_per_sec m ∧ 0 ≤ params_per_mb m ∧
    (total_time m = 0 → rows_per_sec m = 0 ∧ params_per_sec m = 0) ∧
    (total_size m = 0 → params_per_mb m = 0) ∧
    (m.times = [] → rows_per_sec m = 0 ∧ params_per_sec m = 0) ∧
    (m.sizes = [] → params_per_mb m = 0) := by
  have htt : 0 ≤ total_time m := List.sum_nonneg ht
  have hrows : (0 : ℚ) ≤ (total_rows m : ℚ) := Nat.cast_nonneg _
  have hparams : (0 : ℚ) ≤ (total_params m : ℚ) := Nat.cast_nonneg _
  have hsize : (0 : ℚ) ≤ (total_size m : ℚ) := Nat.cast_nonneg _
  refine ⟨?_, ?_, ?_, ?_, ?_, ?_, ?_⟩
  · unfold rows_per_sec
    split
    · exact div_nonneg hrows htt
    · exact le_refl 0
  · unfold params_per_sec
    split
    · exact div_nonneg hparams htt
    · exact le_refl 0
  · unfold params_per_mb
    split
    · exact div_nonneg hparams (div_nonneg hsize (by norm_num))
    · exact le_refl 0
  · intro h0
    constructor
    · unfold rows_per_sec
      rw [if_neg (by simpa using h0)]
    · unfold params_per_sec
      rw [if_neg (by simpa using h0)]
  · intro h0
    unfold params_per_mb
    rw [if_neg (by simpa using h0)]
  · intro h0
    have h0' : total_time m = 0 := by
      unfold total_time
      rw [h0]
      rfl
    constructor
    · unfold rows_per_sec
      rw [if_neg (by simpa using h0')]
    · unfold params_per_sec
      rw [if_neg (by simpa using h0')]
  · intro h0
    have h0' : total_size m = 0 := by
      unfold total_size
      rw [h0]
      rfl
    unfold params_per_mb
    rw [if_neg (by simpa using h0')]

/-- Witness for C6 at a run with one iteration, 5 rows, 25 cells, zero
elapsed time and zero bytes: every throughput field is exactly 0. -/
theorem claim_C6_witness :
    (∀ t ∈ mW.times, (0 : ℚ) ≤ t) ∧
    (0 ≤ rows_per_sec mW ∧ 0 ≤ params_per_sec mW ∧ 0 ≤ params_per_mb mW ∧
    (total_time mW = 0 → rows_per_sec mW = 0 ∧ params_per_sec mW = 0) ∧
    (total_size mW = 0 → params_per_mb mW = 0) ∧
    (mW.times = [] → rows_per_sec mW = 0 ∧ params_per_sec mW = 0) ∧
    (mW.sizes = [] → params_per_mb mW = 0)) :=
  ⟨by intro t h; simp only [mW, List.mem_singleton] at h; simp [h],
    claim_C6 mW (by intro t h; simp only [mW, List.mem_singleton] at h; simp [h])⟩

/-- C7: the per-directory deletion loop of `clear_partitions` attempts
every listed entry; a failing deletion is reported for that entry and does
not abort the remaining deletions, so every deletable entry is still
removed even when another entry's delete fails; and with all three
directories present the whole operation processes every directory without
aborting. -/
theorem claim_C7 {ε : Type} (delete : ε → Except String Unit)
    (entries : List ε) :
    (clear_dir_entries delete entries).map Prod.fst = entries ∧
    (∀ e ∈ entries, delete e = Except.ok () →
      (e, none) ∈ clear_dir_entries delete entries) ∧
    (∀ e m, e ∈ entries → delete e = Except.error m →
      (e, some m) ∈ clear_dir_entries delete entries) ∧
    (∀ dirs : List (List ε),
      clear_partitions delete (dirs.map some) =
        Except.ok (dirs.map (clear_dir_entries delete))) := by
  refine ⟨?_, ?_, ?_, ?_⟩
  · induction entries with
    | nil => rfl
    | cons e rest ih =>
      simp only [clear_dir_entries]
      cases hdel : delete e with
      | ok u => simpa using ih
      | error m => simpa using ih
  · intro e he hdel
    induction entries with
    | nil => simp at he
    | cons a rest ih =>
      simp only [clear_dir_entries]
      rcases List.mem_cons.mp he with h | h
      · subst h
        rw [hdel]
        exact List.mem_cons_self _ _
      · exact List.mem_cons_of_mem _ (ih h)
  · intro e m he hdel
    induction entries with
    | nil => simp at he
    | cons a rest ih =>
      simp only [clear_dir_entries]
      rcases List.mem_cons.mp he with h | h
      · subst h
        rw [hdel]
        exact List.mem_cons_self _ _
      · exact List.mem_cons_of_mem _ (ih h)
  · intro dirs
    induction dirs with
    | nil => rfl
    | cons d rest ih =>
      simp only [List.map_cons, clear_partitions, ih]

/-- Witness for C7: with entries `[0, 1, 2]` where deleting entry 1 fails,
all three entries are attempted, entries 0 and 2 are removed, and the
failure is reported against entry 1. -/
theorem claim_C7_witness :
    clear_dir_entries deleteW [0, 1, 2] =
      [(0, none), (1, some "denied"), (2, some "denied")] ∨
    ((clear_dir_entries deleteW [0, 1, 2]).map Prod.fst = [0, 1, 2] ∧
      (0, none) ∈ clear_dir_entries deleteW [0, 1, 2] ∧
      (2, none) ∈ clear_dir_entries deleteW [0, 1, 2] ∧
      (1, some "denied") ∈ clear_dir_entries deleteW [0, 1, 2]) :=
  Or.inr
    ⟨(claim_C7 deleteW [0, 1, 2]).1,
      (claim_C7 deleteW [0, 1, 2]).2.1 0 (by decide) rfl,
      (claim_C7 deleteW [0, 1, 2]).2.1 2 (by decide) rfl,
      (claim_C7 deleteW [0, 1, 2]).2.2.1 1 "denied" (by decide) rfl⟩

/-- C8 as frozen is false on the code: under the constructor's default
parser selection all three parquet encoders are selected, `_partition`
writes three copies of every parquet partition into the shared parquet
directory (io_bench.py lines 171-174), and a parquet adapter reads the
whole directory back, so the read-back has 15 rows where the dataset has
5 — the claimed row-count-preserving round trip fails. -/
theorem claim_C8_counterexample :
    ¬ (∀ out : List Nat,
        ArrowParquetParser.to_polars
          (family_partition_files parquet_family default_parsers
            [10, 20, 30, 40, 50]
            (find_partition_ranges szW
              ([10, 20, 30, 40, 50] : List Nat).length 3 2)) =
          Except.ok out →
        out.length = ([10, 20, 30, 40, 50] : List Nat).length) := by
  intro h
  have hne : family_partition_files parquet_family default_parsers
      [10, 20, 30, 40, 50]
      (find_partition_ranges szW
        ([10, 20, 30, 40, 50] : List Nat).length 3 2) ≠ [] := by
    decide
  have hread := (to_polars_of_ne_nil hne).2.1
  have hlen := h _ hread
  exact absurd hlen (by decide)

/-- C8 (amended): for the parquet/feather families `_partition` writes one
copy of each range's slice per selected encoder variant into the family's
shared directory, and the family's adapters read that whole directory
back, so the round trip yields the dataset repeated `k` times, `k` being
the number of selected variants of the family: the directory holds `k`
files per range, the read-back in any glob order is a permutation of `k`
concatenated copies of the dataset with total row count `k * R`, and the
round trip is exact — the original rows, with their values, through every
adapter — precisely when a single variant of the family is selected
(always the case for the single-variant avro family).  External
encoders/decoders are taken as faithful at their interface boundary, so
format-native type coercions are the identity here. -/
theorem claim_C8 {α : Type} (sz : Nat → Nat → Nat) (rows : List α)
    (T chunk : Nat) (_hchunk : 0 < chunk) (variants parsers : List String) :
    (family_partition_files variants parsers rows
        (find_partition_ranges sz rows.length T chunk)).length =
      (find_partition_ranges sz rows.length T chunk).length *
        (selected_family variants parsers).length ∧
    (∀ order : List (List α),
      order.Perm (family_partition_files variants parsers rows
        (find_partition_ranges sz rows.length T chunk)) →
      order.flatten.Perm
        ((List.replicate (selected_family variants parsers).length
          rows).flatten)) ∧
    (∀ order : List (List α),
      order.Perm (family_partition_files variants parsers rows
        (find_partition_ranges sz rows.length T chunk)) →
      order.flatten.length =
        (selected_family variants parsers).length * rows.length) ∧
    ((selected_family variants parsers).length = 1 →
      family_partition_files variants parsers rows
          (find_partition_ranges sz rows.length T chunk) =
        partition_slices rows
          (find_partition_ranges sz rows.length T chunk) ∧
      (family_partition_files variants parsers rows
        (find_partition_ranges sz rows.length T chunk)).flatten = rows ∧
      AvroParser.to_polars (family_partition_files variants parsers rows
        (find_partition_ranges sz rows.length T chunk)) = Except.ok rows ∧
      ArrowParquetParser.to_polars (family_partition_files variants parsers
        rows (find_partition_ranges sz rows.length T chunk)) =
        Except.ok rows ∧
      FastParquetParser.to_polars (family_partition_files variants parsers
        rows (find_partition_ranges sz rows.length T chunk)) =
        Except.ok rows ∧
      FeatherParser.to_polars (family_partition_files variants parsers rows
        (find_partition_ranges sz rows.length T chunk)) = Except.ok rows ∧
      ArrowFeatherParser.to_polars (family_partition_files variants parsers
        rows (find_partition_ranges sz rows.length T chunk)) =
        Except.ok rows ∧
      (∀ read_parquet_glob : List (List α) → Except String (List α),
        (∀ fs, fs ≠ [] → read_parquet_glob fs = Except.ok fs.flatten) →
        PolarsParquetParser.to_polars read_parquet_glob
          (family_partition_files variants parsers rows
            (find_partition_ranges sz rows.length T chunk)) =
          Except.ok rows)) := by
  obtain ⟨hne, hchain⟩ := find_partition_ranges_chain sz rows.length T chunk
  have hflat : (partition_slices rows
      (find_partition_ranges sz rows.length T chunk)).flatten = rows := by
    have h := ranges_chain_join rows hchain
    simpa using h
  have hkey : ((family_partition_files variants parsers rows
      (find_partition_ranges sz rows.length T chunk)).flatten).Perm
      ((List.replicate (selected_family variants parsers).length
        rows).flatten) := by
    rw [family_partition_files_eq]
    have h := perm_flatMap_replicate (selected_family variants parsers).length
      (partition_slices rows (find_partition_ranges sz rows.length T chunk))
    rw [hflat] at h
    exact h
  refine ⟨family_partition_files_length variants parsers rows _, ?_, ?_, ?_⟩
  · intro order hord
    exact (hord.flatten).trans hkey
  · intro order hord
    rw [(hord.flatten.trans hkey).length_eq, length_flatten_replicate]
  · intro hk
    obtain ⟨v, hv⟩ := List.length_eq_one.mp hk
    have hfiles : family_partition_files variants parsers rows
        (find_partition_ranges sz rows.length T chunk) =
        partition_slices rows
          (find_partition_ranges sz rows.length T chunk) := by
      unfold family_partition_files partition_slices
      simp only [hv, List.map_cons, List.map_nil]
      exact flatMap_singleton_map _ _
    have hfne : family_partition_files variants parsers rows
        (find_partition_ranges sz rows.length T chunk) ≠ [] := by
      rw [hfiles]
      unfold partition_slices
      simpa using hne
    have hflat' : (family_partition_files variants parsers rows
        (find_partition_ranges sz rows.length T chunk)).flatten = rows := by
      rw [hfiles]
      exact hflat
    obtain ⟨h1, h2, h3, h4, h5⟩ := to_polars_of_ne_nil hfne
    refine ⟨hfiles, hflat', ?_, ?_, ?_, ?_, ?_, ?_⟩
    · rw [h1, hflat']
    · rw [h2, hflat']
    · rw [h3, hflat']
    · rw [h4, hflat']
    · rw [h5, hflat']
    · intro read_parquet_glob hrg
      unfold PolarsParquetParser.to_polars
      rw [hrg _ hfne, hflat']

/-- Witness for C8 (amended) at five concrete rows, `sz = szW`, `T = 3`,
`chunk = 2`: with only `parquet_polars` selected the directory holds the
two files `[10,20]` and `[30,40,50]` and reads back to the dataset
exactly, while with the default (all-parser) selection the same two
ranges produce six parquet files whose read-back has `3 * 5 = 15` rows. -/
theorem claim_C8_witness :
    (0 < 2) ∧
    (selected_family parquet_family ["parquet_polars"]).length = 1 ∧
    family_partition_files parquet_family ["parquet_polars"]
      [10, 20, 30, 40, 50]
      (find_partition_ranges szW
        ([10, 20, 30, 40, 50] : List Nat).length 3 2) =
      [[10, 20], [30, 40, 50]] ∧
    AvroParser.to_polars (family_partition_files parquet_family
      ["parquet_polars"] [10, 20, 30, 40, 50]
      (find_partition_ranges szW
        ([10, 20, 30, 40, 50] : List Nat).length 3 2)) =
      Except.ok [10, 20, 30, 40, 50] ∧
    (family_partition_files parquet_family default_parsers
      [10, 20, 30, 40, 50]
      (find_partition_ranges szW
        ([10, 20, 30, 40, 50] : List Nat).length 3 2)).flatten.length =
      15 :=
  ⟨by decide, by decide, by decide,
    ((claim_C8 szW [10, 20, 30, 40, 50] 3 2 (by decide) parquet_family
      ["parquet_polars"]).2.2.2 (by decide)).2.2.1,
    ((claim_C8 szW [10, 20, 30, 40, 50] 3 2 (by decide) parquet_family
      default_parsers).2.2.1 _ (List.Perm.refl _)).trans (by decide)⟩

/-- C9: calling `battery` twice with the default `None` suffix produces,
for each selected parser name, the ids `name_<c>` and then `name_<c+1>`
(the rendered counter is appended after an underscore), the counter
increments by one on each default call, and the two ids for the same
parser are distinct. -/
theorem claim_C9 (parsers : List String) (counter : Nat) :
    (battery parsers none counter).2 = counter + 1 ∧
    (battery parsers none ((battery parsers none counter).2)).2 =
      counter + 2 ∧
    (battery parsers none counter).1 =
      parsers.map (fun name => name ++ ("_" ++ Nat.repr counter)) ∧
    (battery parsers none ((battery parsers none counter).2)).1 =
      parsers.map (fun name => name ++ ("_" ++ Nat.repr (counter + 1))) ∧
    (∀ name ∈ parsers,
      name ++ ("_" ++ Nat.repr counter) ≠
        name ++ ("_" ++ Nat.repr (counter + 1))) :=
  ⟨rfl, rfl, rfl, rfl, fun name _ => append_repr_succ_ne name counter⟩

/-- Witness for C9: two default calls starting from counter 0 over the
single parser name `avro` give the distinct ids `avro_0` and `avro_1`. -/
theorem claim_C9_witness :
    (battery ["avro"] none 0).1 = ["avro_0"] ∧
    (battery ["avro"] none ((battery ["avro"] none 0).2)).1 = ["avro_1"] ∧
    (battery ["avro"] none 0).2 = 1 ∧
    (battery ["avro"] none 1).2 = 2 ∧
    "avro" ++ ("_" ++ Nat.repr 0) ≠ "avro" ++ ("_" ++ Nat.repr 1) :=
  ⟨by decide, by decide, by decide, by decide,
    (claim_C9 ["avro"] 0).2.2.2.2 "avro" (by decide)⟩

/-- C10: `clear_partitions` lists each directory before its per-entry
error containment starts, so when any of the three format directories does
not exist the directory listing raises an uncaught error and the whole
operation fails — as happens on a fresh output directory, since the
directories are only created inside the `partition()` flow. -/
theorem claim_C10 {ε : Type} (delete : ε → Except String Unit)
    (dirs : List (Option (List ε))) (h : none ∈ dirs) :
    ∃ msg, clear_partitions delete dirs = Except.error msg := by
  induction dirs with
  | nil => simp at h
  | cons d rest ih =>
    cases d with
    | none => exact ⟨"No such file or directory", rfl⟩
    | some entries =>
      have hrest : none ∈ rest := by
        rcases List.mem_cons.mp h with h | h
        · exact absurd h (by simp)
        · exact h
      obtain ⟨m, hm⟩ := ih hrest
      refine ⟨m, ?_⟩
      simp only [clear_partitions, hm]

/-- Witness for C10: on a fresh output directory all three format
directories are missing and `clear_partitions` raises instead of
returning. -/
theorem claim_C10_witness :
    (none ∈ ([none, none, none] : List (Option (List Nat)))) ∧
    ∃ msg, clear_partitions deleteW [none, none, none] =
      Except.error msg :=
  ⟨by decide, claim_C10 deleteW [none, none, none] (by decide)⟩

end IoBench
